import Mathlib

/-!
Verification of the Wieringa-roofing tiling generator.

This file gives a shallow embedding of the two Python source files:

* `src/src/wieringa_roofing/gentiling.py` — the exact-arithmetic layer
  `QQuad` (the quadratic extension field Q(sqrt 5)), embedded with
  rational components (`ℚ`) and an explicit `sq` field; the fallible
  `reciprocal` (which raises `ZeroDivisionError` in Python) is embedded
  as an `Option`-returning function.

* `src/gentiling2.py` — the subdivision engine (`mktransform`,
  `index_opp`, `index_nei`, `Tile`, `Tile.subdivide`,
  `Tile.get_points_with_height`, `Tile.center`), the tile-level
  deduplication (`closest_point` and the uniqueness filter in `main`),
  the constraint encoder (the `z3` constraints built in `main`,
  embedded as an explicit syntax of integer constraints with a
  semantics), and the tail of `main` after the solver call. Python
  floats are modelled as exact numbers: real numbers (`ℝ`) where
  trigonometry is involved, rationals (`ℚ`) for the deduplication
  logic, whose only operations are field operations and comparisons.
-/

/-! ## QQuad: the quadratic extension field (gentiling.py) -/

/-- Embedding of the Python dataclass `QQuad`: an element `a + b * sqrt sq`
of a quadratic extension of the rationals. Components are `Fraction`s in
the source, hence `ℚ` here; `sq` is an `int`. -/
structure QQuad where
  a : ℚ
  b : ℚ
  sq : ℤ
deriving DecidableEq, Repr

/-- Embedding of `QQuad.mul`. The Python `assert self.compatible(other)`
is a precondition (both arguments have the same `sq`); every use in the
claims satisfies it. The formula is the source's:
`(a + b sqrt sq)(a' + b' sqrt sq) = (aa' + bb' sq) + (ab' + ba') sqrt sq`. -/
def QQuad.mul (x y : QQuad) : QQuad :=
  ⟨x.a * y.a + x.b * y.b * (x.sq : ℚ), x.a * y.b + x.b * y.a, x.sq⟩

/-- Embedding of `QQuad.reciprocal`. The source computes
`denom = a*a - b*b*sq` and raises `ZeroDivisionError` when `denom == 0`;
the exception is embedded as `none`. -/
def QQuad.reciprocal (x : QQuad) : Option QQuad :=
  let denom : ℚ := x.a * x.a - x.b * x.b * (x.sq : ℚ)
  if denom = 0 then none
  else some ⟨x.a / denom, -x.b / denom, x.sq⟩

/-! ## Index maps (gentiling2.py, lines 44-47) -/

/-- Embedding of `index_opp`: `[3, 4, 1, 2][i - 1]`, the Python list
lookup on a 1-based index. -/
def index_opp (i : ℤ) : ℤ :=
  ([3, 4, 1, 2] : List ℤ).getD (i - 1).toNat 0

/-- Embedding of `index_nei`: `[2, 3, 2, 3][i - 1]`. -/
def index_nei (i : ℤ) : ℤ :=
  ([2, 3, 2, 3] : List ℤ).getD (i - 1).toNat 0

/-! ## Tail of `main` after the solver call (gentiling2.py, lines 296-348) -/

/-- A tile as seen by the constraint/labelling stage of `main`: its shape,
its (mutable, later overwritten) index, and its four `point_indices` into
the deduplicated vertex table. -/
structure STile where
  thick : Bool
  index : ℤ
  p0 : Nat
  p1 : Nat
  p2 : Nat
  p3 : Nat
deriving DecidableEq, Repr

/-- Result of `s.check()`: a model (a height for each vertex variable) on
`sat`, or `unsat`. -/
inductive SolveResult where
  | sat (m : Nat → ℤ)
  | unsat

/-- What `main` does with the tiles in the solve block (lines 296-304):
on `sat` every tile's `index` is overwritten with the model value of its
first point index; on `unsat` the tiles are left untouched. -/
def applyModel (r : SolveResult) (tiles : List STile) : List STile :=
  match r with
  | SolveResult.sat m => tiles.map fun t => { t with index := m t.p0 }
  | SolveResult.unsat => tiles

/-- Which output files the tail of `main` produces: the rendered PNG
(`surface.write_to_png`, line 327) and the 3D export
(`output/autogen.scad`, lines 329-348). -/
structure MainOut where
  png : Bool
  scad : Bool
deriving DecidableEq, Repr

/-- Embedding of `main` after the constraint setup (lines 296-348): the
solve block prints `"sat"` or `"unsat"` and updates the indices only on
`sat`; then, unconditionally, the tiles are drawn, the PNG is written and
the scad export is written — no branch skips the output stage. Returns
the final tiles, the message printed by the solve block, and which
outputs were produced. -/
def mainTail (tiles : List STile) (r : SolveResult) :
    List STile × String × MainOut :=
  let msg := match r with
    | SolveResult.sat _ => "sat"
    | SolveResult.unsat => "unsat"
  (applyModel r tiles, msg, ⟨true, true⟩)

/-! ## Key arithmetic fact for the exact layer -/

/-- Over the rationals, `a ^ 2 = 5 * b ^ 2` forces `a = 0` and `b = 0`,
because 5 is not a rational square. -/
theorem rat_sq_eq_five_sq (a b : ℚ) (h : a * a = 5 * (b * b)) :
    a = 0 ∧ b = 0 := by
  by_cases hb : b = 0
  · subst hb
    simp only [mul_zero, zero_mul] at h
    rcases mul_self_eq_zero.mp h with ha
    exact ⟨ha, rfl⟩
  · exfalso
    have hsq : IsSquare ((5 : ℕ) : ℚ) := by
      refine ⟨a / b, ?_⟩
      push_cast
      field_simp
      linarith [h]
    have : IsSquare (5 : ℕ) := Rat.isSquare_natCast_iff.mp hsq
    exact Nat.prime_five.not_square this

/-- The reciprocal's denominator `a * a - b * b * 5` vanishes exactly on
the zero element. -/
theorem denom_eq_zero_iff (a b : ℚ) :
    a * a - b * b * 5 = 0 ↔ a = 0 ∧ b = 0 := by
  constructor
  · intro h
    exact rat_sq_eq_five_sq a b (by linarith)
  · rintro ⟨ha, hb⟩
    subst ha; subst hb; ring

/-! ## Claim C1: the opposite-index map -/

/-- C1 counterexample: the claim states `opp(1) = 4`, but the source
lookup table `[3, 4, 1, 2]` gives `opp(1) = 3`. -/
theorem index_opp_c1_cex : index_opp 1 = 3 ∧ ¬ index_opp 1 = 4 := by
  decide

/-- C1 (amended): the fixed opposite-index map `opp` used by subdivision
and geometry evaluation is the pairing (1,3) and (2,4):
`opp(1) = 3`, `opp(2) = 4`, `opp(3) = 1`, `opp(4) = 2`. -/
theorem index_opp_c1_amended :
    index_opp 1 = 3 ∧ index_opp 2 = 4 ∧ index_opp 3 = 1 ∧ index_opp 4 = 2 := by
  decide

/-! ## Claim C2: behaviour of the pipeline on unsat -/

/-- C2 counterexample: with an empty tile list and an `unsat` solver
result, the tail of `main` still produces both the rendered image and
the 3D export — it is not the case that neither output is produced. -/
theorem mainTail_c2_cex :
    ¬ ((mainTail [] SolveResult.unsat).2.2.png = false ∧
       (mainTail [] SolveResult.unsat).2.2.scad = false) := by
  decide

/-- C2 (amended): if the solver returns unsat, `main` prints `"unsat"`
and leaves every tile's index at its pre-solve value, but the pipeline
does not terminate early: it still renders the image and writes the 3D
export. -/
theorem mainTail_c2_amended (tiles : List STile) :
    mainTail tiles SolveResult.unsat = (tiles, "unsat", ⟨true, true⟩) :=
  rfl

/-! ## Claims C8 and C9: the exact reciprocal -/

/-- C8: for a `QQuad` with the default adjoined square `sq = 5`,
`reciprocal` raises `ZeroDivisionError` (returns `none`) exactly on the
zero element; on every nonzero element it returns normally with exact
rational components (so no NaN or infinity can arise). -/
theorem reciprocal_zero_iff (x : QQuad) (h : x.sq = 5) :
    x.reciprocal = none ↔ (x.a = 0 ∧ x.b = 0) := by
  have h5 : ((x.sq : ℤ) : ℚ) = 5 := by rw [h]; norm_num
  by_cases hd : x.a * x.a - x.b * x.b * 5 = 0
  · have := (denom_eq_zero_iff x.a x.b).mp hd
    simp [QQuad.reciprocal, h5, hd, this]
  · simp only [QQuad.reciprocal, h5]
    simp [hd]
    intro ha hb
    exact hd ((denom_eq_zero_iff x.a x.b).mpr ⟨ha, hb⟩)

/-- C8 witness: the zero element with `sq = 5` is rejected. -/
theorem reciprocal_zero_iff_witness :
    QQuad.reciprocal ⟨0, 0, 5⟩ = none :=
  (reciprocal_zero_iff ⟨0, 0, 5⟩ rfl).mpr ⟨rfl, rfl⟩

/-- C9: for every nonzero `QQuad` with `sq = 5`, the reciprocal exists,
taking it twice gives back the argument exactly, and multiplying the
argument by its reciprocal gives exactly `QQuad(1)` — all in exact
rational arithmetic. -/
theorem reciprocal_roundtrip (x : QQuad) (h : x.sq = 5)
    (hx : ¬ (x.a = 0 ∧ x.b = 0)) :
    ∃ y, x.reciprocal = some y ∧ y.reciprocal = some x ∧
      x.mul y = ⟨1, 0, 5⟩ := by
  rcases x with ⟨a, b, sq⟩
  simp only at h hx
  subst h
  have hd : a * a - b * b * 5 ≠ 0 := fun hc =>
    hx ((denom_eq_zero_iff a b).mp hc)
  have h5 : (((5 : ℤ)) : ℚ) = 5 := by norm_num
  refine ⟨⟨a / (a * a - b * b * 5), -b / (a * a - b * b * 5), 5⟩, ?_, ?_, ?_⟩
  · simp [QQuad.reciprocal, h5, hd]
  · have hd2 : a / (a * a - b * b * 5) * (a / (a * a - b * b * 5)) -
        -b / (a * a - b * b * 5) * (-b / (a * a - b * b * 5)) * 5 ≠ 0 := by
      field_simp
    simp only [QQuad.reciprocal, h5]
    rw [if_neg hd2]
    simp only [Option.some.injEq, QQuad.mk.injEq]
    refine ⟨?_, ?_, trivial⟩ <;> field_simp
  · simp only [QQuad.mul, h5, QQuad.mk.injEq]
    refine ⟨?_, ?_, trivial⟩ <;> field_simp <;> ring

/-- C9 witness: the element `1 + sqrt 5` round-trips through
`reciprocal` and multiplies with its reciprocal to one. -/
theorem reciprocal_roundtrip_witness :
    ∃ y, QQuad.reciprocal ⟨1, 1, 5⟩ = some y ∧
      QQuad.reciprocal y = some ⟨1, 1, 5⟩ ∧
      QQuad.mul ⟨1, 1, 5⟩ y = ⟨1, 0, 5⟩ :=
  reciprocal_roundtrip ⟨1, 1, 5⟩ rfl (by decide)

/-! ## Geometry layer (gentiling2.py, lines 36-137) -/

/-- A 3x3 homogeneous transform matrix (the `np.matrix` of the source),
with explicit real entries. -/
structure Mat3 where
  m00 : ℝ
  m01 : ℝ
  m02 : ℝ
  m10 : ℝ
  m11 : ℝ
  m12 : ℝ
  m20 : ℝ
  m21 : ℝ
  m22 : ℝ

/-- Standard 3x3 matrix product, used for `self.transform * mktransform(...)`. -/
noncomputable def Mat3.mul (A B : Mat3) : Mat3 :=
  ⟨A.m00 * B.m00 + A.m01 * B.m10 + A.m02 * B.m20,
   A.m00 * B.m01 + A.m01 * B.m11 + A.m02 * B.m21,
   A.m00 * B.m02 + A.m01 * B.m12 + A.m02 * B.m22,
   A.m10 * B.m00 + A.m11 * B.m10 + A.m12 * B.m20,
   A.m10 * B.m01 + A.m11 * B.m11 + A.m12 * B.m21,
   A.m10 * B.m02 + A.m11 * B.m12 + A.m12 * B.m22,
   A.m20 * B.m00 + A.m21 * B.m10 + A.m22 * B.m20,
   A.m20 * B.m01 + A.m21 * B.m11 + A.m22 * B.m21,
   A.m20 * B.m02 + A.m21 * B.m12 + A.m22 * B.m22⟩

/-- Embedding of `mktransform(x, y, theta, scale)`: scale, rotate by
`theta` degrees, translate to `(x, y)`, as the source's homogeneous
matrix. -/
noncomputable def mktransform (x y theta scale : ℝ) : Mat3 :=
  let t := theta * Real.pi / 180
  ⟨scale * Real.cos t, -(scale * Real.sin t), x,
   scale * Real.sin t, scale * Real.cos t, y,
   0, 0, 1⟩

/-- Embedding of the dataclass `Tile`: shape flag, symbolic index, and
placement transform (the `point_indices` field belongs to the dedup
stage and is carried by `STile` there). -/
structure Tile where
  thick : Bool
  index : ℤ
  transform : Mat3

/-- Embedding of `Tile.get_point(lx, ly)`: the transform applied to the
homogeneous point `(lx, ly, 1)`, keeping the first two coordinates. -/
noncomputable def Tile.get_point (t : Tile) (lx ly : ℝ) : ℝ × ℝ :=
  (t.transform.m00 * lx + t.transform.m01 * ly + t.transform.m02 * 1,
   t.transform.m10 * lx + t.transform.m11 * ly + t.transform.m12 * 1)

/-- Embedding of `Tile.get_points_with_height`, line for line: the four
boundary points of the unit rhombus template under the tile's transform,
each paired with its symbolic height (`self.index` and derived values
cast to floats by the Python division `(i_bot + i_top) / 2`). -/
noncomputable def Tile.get_points_with_height (t : Tile) :
    List ((ℝ × ℝ) × ℝ) :=
  if t.thick then
    let c := Real.cos (54 * Real.pi / 180)
    let s := Real.sin (54 * Real.pi / 180)
    let bot := t.get_point 0 0
    let left := t.get_point (-c) s
    let right := t.get_point c s
    let top := t.get_point 0 (2 * s)
    let i_bot : ℝ := (t.index : ℝ)
    let i_top : ℝ := (index_opp t.index : ℝ)
    let i_mid : ℝ := (i_bot + i_top) / 2
    [(bot, i_bot), (right, i_mid), (top, i_top), (left, i_mid)]
  else
    let c := Real.cos (72 * Real.pi / 180)
    let s := Real.sin (72 * Real.pi / 180)
    let right := t.get_point 0 0
    let top := t.get_point (-c) s
    let left := t.get_point (-(2 * c)) 0
    let bottom := t.get_point (-c) (-s)
    let i_right : ℝ := (t.index : ℝ)
    let i_left : ℝ := (index_opp t.index : ℝ)
    let i_mid : ℝ := (i_right + i_left) / 2
    [(right, i_right), (top, i_mid), (left, i_left), (bottom, i_mid)]

/-- Embedding of `Tile.get_points`: the points without their heights. -/
noncomputable def Tile.get_points (t : Tile) : List (ℝ × ℝ) :=
  t.get_points_with_height.map Prod.fst

/-- Embedding of `Tile.center`: the Python destructuring
`p1, _, p2, _ = self.get_points()` takes boundary points 0 and 2 and
returns their midpoint. -/
noncomputable def Tile.center (t : Tile) : ℝ × ℝ :=
  let p1 := t.get_points.getD 0 (0, 0)
  let p2 := t.get_points.getD 2 (0, 0)
  ((p1.1 + p2.1) / 2, (p1.2 + p2.2) / 2)

/-- Embedding of `Tile.subdivide`, line for line. Note that in the thin
branch the source rebinds `s` to `sin 72°` *after* computing
`subscale = 1 / (2 sin 54°)`, so the thin children also use the
`1 / (2 sin 54°)` scale. -/
noncomputable def Tile.subdivide (t : Tile) : List Tile :=
  let s := Real.sin (54 * Real.pi / 180)
  let subscale := 1 / (2 * s)
  let ind := t.index
  let opp := index_opp t.index
  let nei := index_nei t.index
  if t.thick then
    let c := Real.cos (54 * Real.pi / 180)
    let midx : ℝ := 0
    let midy : ℝ := 2 * s - 1 / (2 * s)
    [⟨true, opp, t.transform.mul (mktransform midx midy 180 subscale)⟩,
     ⟨true, opp, t.transform.mul (mktransform 0 (2 * s) (180 - 36) subscale)⟩,
     ⟨true, opp, t.transform.mul (mktransform 0 (2 * s) (180 + 36) subscale)⟩,
     ⟨false, nei, t.transform.mul (mktransform (-c) s (90 + 36) subscale)⟩,
     ⟨false, nei, t.transform.mul (mktransform c s (90 - 36) subscale)⟩]
  else
    let c := Real.cos (72 * Real.pi / 180)
    [⟨true, ind, t.transform.mul (mktransform 0 0 18 subscale)⟩,
     ⟨true, ind, t.transform.mul (mktransform 0 0 (180 - 18) subscale)⟩,
     ⟨false, opp, t.transform.mul (mktransform (-(2 * c)) 0 (270 - 18) subscale)⟩,
     ⟨false, opp, t.transform.mul (mktransform (-(2 * c)) 0 (90 + 18) subscale)⟩]

/-- The grammar constant `s = sin 54°` (degrees converted as in the source). -/
noncomputable def s54 : ℝ := Real.sin (54 * Real.pi / 180)

/-- The grammar constant `c = cos 54°`. -/
noncomputable def c54 : ℝ := Real.cos (54 * Real.pi / 180)

/-- The grammar constant `c = cos 72°` of the thin rules. -/
noncomputable def c72 : ℝ := Real.cos (72 * Real.pi / 180)

/-- The constant `sin 72°` used by the thin template. -/
noncomputable def s72 : ℝ := Real.sin (72 * Real.pi / 180)

/-- The `bot` template corner of a thick tile (source line 80). -/
noncomputable def Tile.thickBot (t : Tile) : ℝ × ℝ := t.get_point 0 0

/-- The `left` template corner of a thick tile (source line 81). -/
noncomputable def Tile.thickLeft (t : Tile) : ℝ × ℝ := t.get_point (-c54) s54

/-- The `right` template corner of a thick tile (source line 82). -/
noncomputable def Tile.thickRight (t : Tile) : ℝ × ℝ := t.get_point c54 s54

/-- The `top` template corner of a thick tile (source line 83). -/
noncomputable def Tile.thickTop (t : Tile) : ℝ × ℝ := t.get_point 0 (2 * s54)

/-- The `right` template corner of a thin tile (source line 91). -/
noncomputable def Tile.thinRight (t : Tile) : ℝ × ℝ := t.get_point 0 0

/-- The `top` template corner of a thin tile (source line 92). -/
noncomputable def Tile.thinTop (t : Tile) : ℝ × ℝ := t.get_point (-c72) s72

/-- The `left` template corner of a thin tile (source line 93). -/
noncomputable def Tile.thinLeft (t : Tile) : ℝ × ℝ := t.get_point (-(2 * c72)) 0

/-- The `bottom` template corner of a thin tile (source line 94). -/
noncomputable def Tile.thinBottom (t : Tile) : ℝ × ℝ := t.get_point (-c72) (-s72)

/-- The height component at position `k` of a tile's boundary list. -/
noncomputable def heightAt (t : Tile) (k : Nat) : ℝ :=
  (t.get_points_with_height.getD k ((0, 0), 0)).2

/-! ## Claim C3: subdivision of a thick tile -/

/-- C3: subdividing a thick tile yields exactly five children — three
thick with the `opp` index and two thin with the `nei` index (where
`nei` maps 1→2, 2→3, 3→2, 4→3) — whose transforms compose the parent
transform with local transforms of uniform scale `1/(2 sin 54°)` and,
in order, translation/rotation `(0, 2s - 1/(2s), 180°)`,
`(0, 2s, 180°-36°)`, `(0, 2s, 180°+36°)`, `(-c, s, 90°+36°)`,
`(c, s, 90°-36°)` with `c = cos 54°`, `s = sin 54°`. -/
theorem subdivide_thick_c3 (i : ℤ) (T : Mat3) :
    Tile.subdivide ⟨true, i, T⟩ =
      [⟨true, index_opp i,
        T.mul (mktransform 0 (2 * s54 - 1 / (2 * s54)) 180 (1 / (2 * s54)))⟩,
       ⟨true, index_opp i,
        T.mul (mktransform 0 (2 * s54) (180 - 36) (1 / (2 * s54)))⟩,
       ⟨true, index_opp i,
        T.mul (mktransform 0 (2 * s54) (180 + 36) (1 / (2 * s54)))⟩,
       ⟨false, index_nei i,
        T.mul (mktransform (-c54) s54 (90 + 36) (1 / (2 * s54)))⟩,
       ⟨false, index_nei i,
        T.mul (mktransform c54 s54 (90 - 36) (1 / (2 * s54)))⟩] ∧
    index_nei 1 = 2 ∧ index_nei 2 = 3 ∧ index_nei 3 = 2 ∧ index_nei 4 = 3 :=
  ⟨rfl, by decide⟩

/-! ## Claim C4: subdivision of a thin tile -/

/-- C4: subdividing a thin tile yields exactly four children — two thick
keeping the parent's index and two thin with the `opp` index — at
rotations `18°`, `180°-18°`, `270°-18°`, `90°+18°` respectively, with
translation `(-2c, 0)` for the two thin children and none for the thick
children, all at uniform scale `1/(2 sin 54°)`, where `c = cos 72°`. -/
theorem subdivide_thin_c4 (i : ℤ) (T : Mat3) :
    Tile.subdivide ⟨false, i, T⟩ =
      [⟨true, i, T.mul (mktransform 0 0 18 (1 / (2 * s54)))⟩,
       ⟨true, i, T.mul (mktransform 0 0 (180 - 18) (1 / (2 * s54)))⟩,
       ⟨false, index_opp i,
        T.mul (mktransform (-(2 * c72)) 0 (270 - 18) (1 / (2 * s54)))⟩,
       ⟨false, index_opp i,
        T.mul (mktransform (-(2 * c72)) 0 (90 + 18) (1 / (2 * s54)))⟩] :=
  rfl

/-! ## Claim C5: boundary points and heights -/

/-- C5: every tile's boundary list has exactly four (point, height)
pairs; the heights at positions 1 and 3 both equal the average of the
heights at positions 0 and 2; concretely, a thick tile emits
(bottom, right, top, left) with heights (index, mid, opp index, mid)
and a thin tile emits (right, top, left, bottom) with the same height
pattern, where mid = (index + opp index) / 2. -/
theorem points_with_height_c5 (t : Tile) :
    t.get_points_with_height.length = 4 ∧
    heightAt t 1 = (heightAt t 0 + heightAt t 2) / 2 ∧
    heightAt t 3 = (heightAt t 0 + heightAt t 2) / 2 ∧
    t.get_points_with_height =
      (if t.thick then
        [(t.thickBot, (t.index : ℝ)),
         (t.thickRight, ((t.index : ℝ) + (index_opp t.index : ℝ)) / 2),
         (t.thickTop, (index_opp t.index : ℝ)),
         (t.thickLeft, ((t.index : ℝ) + (index_opp t.index : ℝ)) / 2)]
      else
        [(t.thinRight, (t.index : ℝ)),
         (t.thinTop, ((t.index : ℝ) + (index_opp t.index : ℝ)) / 2),
         (t.thinLeft, (index_opp t.index : ℝ)),
         (t.thinBottom, ((t.index : ℝ) + (index_opp t.index : ℝ)) / 2)]) := by
  rcases t with ⟨th, i, T⟩
  cases th <;>
    simp [Tile.get_points_with_height, heightAt, Tile.thickBot,
      Tile.thickRight, Tile.thickTop, Tile.thickLeft, Tile.thinRight,
      Tile.thinTop, Tile.thinLeft, Tile.thinBottom, s54, c54, c72, s72]

/-! ## Claim C10: the tile centre -/

/-- C10: for every tile (either shape, any transform), `center` is the
midpoint of boundary points 0 and 2, and that midpoint coincides with
the arithmetic mean of all four boundary points, because the template is
a rhombus and its affine image a parallelogram. -/
theorem center_c10 (t : Tile) :
    t.center =
      (((t.get_points.getD 0 (0, 0)).1 + (t.get_points.getD 2 (0, 0)).1) / 2,
       ((t.get_points.getD 0 (0, 0)).2 + (t.get_points.getD 2 (0, 0)).2) / 2) ∧
    (t.center).1 =
      ((t.get_points.getD 0 (0, 0)).1 + (t.get_points.getD 1 (0, 0)).1 +
       (t.get_points.getD 2 (0, 0)).1 + (t.get_points.getD 3 (0, 0)).1) / 4 ∧
    (t.center).2 =
      ((t.get_points.getD 0 (0, 0)).2 + (t.get_points.getD 1 (0, 0)).2 +
       (t.get_points.getD 2 (0, 0)).2 + (t.get_points.getD 3 (0, 0)).2) / 4 := by
  refine ⟨rfl, ?_, ?_⟩ <;>
    rcases t with ⟨th, i, T⟩ <;>
    cases th <;>
      simp [Tile.center, Tile.get_points, Tile.get_points_with_height,
        Tile.get_point] <;>
      ring

/-! ## Constraint encoder (gentiling2.py, lines 278-294) -/

/-- Integer terms of the constraints handed to the solver: a vertex
variable `h_i`, an integer literal, or a sum/difference as written in
the source (`h[right] + 1`, `h[right] - 1`, ...). -/
inductive ZExpr where
  | var (i : Nat)
  | lit (k : ℤ)
  | add (e : ZExpr) (f : ZExpr)
  | sub (e : ZExpr) (f : ZExpr)

/-- Atomic and boolean forms of the constraints handed to the solver. -/
inductive ZForm where
  | eq (e : ZExpr) (f : ZExpr)
  | ge (e : ZExpr) (f : ZExpr)
  | le (e : ZExpr) (f : ZExpr)
  | conj (p : ZForm) (q : ZForm)
  | disj (p : ZForm) (q : ZForm)

/-- Value of a term under a height assignment. -/
def ZExpr.eval (h : Nat → ℤ) : ZExpr → ℤ
  | ZExpr.var i => h i
  | ZExpr.lit k => k
  | ZExpr.add e f => e.eval h + f.eval h
  | ZExpr.sub e f => e.eval h - f.eval h

/-- Truth of a form under a height assignment. -/
def ZForm.holds (h : Nat → ℤ) : ZForm → Prop
  | ZForm.eq e f => e.eval h = f.eval h
  | ZForm.ge e f => e.eval h ≥ f.eval h
  | ZForm.le e f => e.eval h ≤ f.eval h
  | ZForm.conj p q => p.holds h ∧ q.holds h
  | ZForm.disj p q => p.holds h ∨ q.holds h

/-- A tile as the encoder sees it: shape and the four `point_indices`
`(p0, p1, p2, p3)`, which the source destructures as
`bot, right, top, left` for a thick tile and `right, top, left, bot`
for a thin one. -/
structure CTile where
  thick : Bool
  p0 : Nat
  p1 : Nat
  p2 : Nat
  p3 : Nat

/-- The domain constraints: for each `i < n` the source adds
`h[i] >= 1` and `h[i] <= 4` (line 282). -/
def domainConstraints (n : Nat) : List ZForm :=
  (List.range n).flatMap fun i =>
    [ZForm.ge (ZExpr.var i) (ZExpr.lit 1), ZForm.le (ZExpr.var i) (ZExpr.lit 4)]

/-- The two constraints the source adds per tile (lines 284-294). -/
def tileConstraints (t : CTile) : List ZForm :=
  if t.thick then
    [ZForm.eq (ZExpr.var t.p1) (ZExpr.var t.p3),
     ZForm.disj
       (ZForm.conj
         (ZForm.eq (ZExpr.var t.p2) (ZExpr.add (ZExpr.var t.p1) (ZExpr.lit 1)))
         (ZForm.eq (ZExpr.var t.p0) (ZExpr.sub (ZExpr.var t.p1) (ZExpr.lit 1))))
       (ZForm.conj
         (ZForm.eq (ZExpr.var t.p2) (ZExpr.sub (ZExpr.var t.p1) (ZExpr.lit 1)))
         (ZForm.eq (ZExpr.var t.p0) (ZExpr.add (ZExpr.var t.p1) (ZExpr.lit 1))))]
  else
    [ZForm.eq (ZExpr.var t.p1) (ZExpr.var t.p3),
     ZForm.disj
       (ZForm.conj
         (ZForm.eq (ZExpr.var t.p0) (ZExpr.sub (ZExpr.var t.p1) (ZExpr.lit 1)))
         (ZForm.eq (ZExpr.var t.p2) (ZExpr.add (ZExpr.var t.p1) (ZExpr.lit 1))))
       (ZForm.conj
         (ZForm.eq (ZExpr.var t.p2) (ZExpr.sub (ZExpr.var t.p1) (ZExpr.lit 1)))
         (ZForm.eq (ZExpr.var t.p0) (ZExpr.add (ZExpr.var t.p1) (ZExpr.lit 1))))]

/-- The full constraint list `main` hands to the solver: the domain
constraints for the `n` deduplicated vertices followed by the two
per-tile constraints, and nothing else. -/
def encode (n : Nat) (tiles : List CTile) : List ZForm :=
  domainConstraints n ++ tiles.flatMap tileConstraints

/-- Specification-side reading of the per-tile clause, transcribed from
the claim: a thick tile with boundary vertices `(bot, right, top, left) =
(p0, p1, p2, p3)` requires `h right = h left` and the ±1 zigzag on
top/bot around `h right`; a thin tile with `(right, top, left, bottom) =
(p0, p1, p2, p3)` requires `h top = h bottom` and the ±1 zigzag on
right/left around `h top`. -/
def tileSpec (h : Nat → ℤ) (t : CTile) : Prop :=
  if t.thick then
    h t.p1 = h t.p3 ∧
      ((h t.p2 = h t.p1 + 1 ∧ h t.p0 = h t.p1 - 1) ∨
       (h t.p2 = h t.p1 - 1 ∧ h t.p0 = h t.p1 + 1))
  else
    h t.p1 = h t.p3 ∧
      ((h t.p0 = h t.p1 - 1 ∧ h t.p2 = h t.p1 + 1) ∨
       (h t.p2 = h t.p1 - 1 ∧ h t.p0 = h t.p1 + 1))

/-- Specification-side reading of the whole constraint system: every
vertex variable lies in `[1, 4]` and every tile satisfies its clause. -/
def specSystem (h : Nat → ℤ) (n : Nat) (tiles : List CTile) : Prop :=
  (∀ i < n, 1 ≤ h i ∧ h i ≤ 4) ∧ ∀ t ∈ tiles, tileSpec h t

theorem domainConstraints_succ (n : Nat) :
    domainConstraints (n + 1) =
      domainConstraints n ++
        [ZForm.ge (ZExpr.var n) (ZExpr.lit 1),
         ZForm.le (ZExpr.var n) (ZExpr.lit 4)] := by
  simp [domainConstraints, List.range_succ]

theorem domain_holds_iff (h : Nat → ℤ) (n : Nat) :
    (∀ c ∈ domainConstraints n, c.holds h) ↔ ∀ i < n, 1 ≤ h i ∧ h i ≤ 4 := by
  induction n with
  | zero => simp [domainConstraints]
  | succ n ih =>
    rw [domainConstraints_succ, List.forall_mem_append, ih]
    constructor
    · rintro ⟨hlt, hn⟩ i hi
      rcases Nat.lt_succ_iff_lt_or_eq.mp hi with hi | hi
      · exact hlt i hi
      · subst hi
        have h1 := hn _ (List.mem_cons_self _ _)
        have h2 := hn _ (List.mem_cons_of_mem _ (List.mem_cons_self _ _))
        exact ⟨h1, h2⟩
    · intro H
      refine ⟨fun i hi => H i (Nat.lt_succ_of_lt hi), ?_⟩
      intro c hc
      have hn := H n (Nat.lt_succ_self n)
      rcases List.mem_cons.mp hc with rfl | hc
      · exact hn.1
      rcases List.mem_cons.mp hc with rfl | hc
      · exact hn.2
      · exact absurd hc (List.not_mem_nil c)

theorem tileConstraints_holds_iff (h : Nat → ℤ) (t : CTile) :
    (∀ c ∈ tileConstraints t, c.holds h) ↔ tileSpec h t := by
  rcases t with ⟨th, p0, p1, p2, p3⟩
  cases th <;>
    simp [tileConstraints, tileSpec, ZForm.holds, ZExpr.eval]

theorem tiles_holds_iff (h : Nat → ℤ) (tiles : List CTile) :
    (∀ c ∈ tiles.flatMap tileConstraints, c.holds h) ↔
      ∀ t ∈ tiles, tileSpec h t := by
  induction tiles with
  | nil => simp
  | cons t rest ih =>
    rw [List.flatMap_cons, List.forall_mem_append, ih, List.forall_mem_cons,
      tileConstraints_holds_iff]

theorem domainConstraints_length (n : Nat) :
    (domainConstraints n).length = 2 * n := by
  induction n with
  | zero => rfl
  | succ n ih =>
    rw [domainConstraints_succ, List.length_append, ih]
    simp only [List.length_cons, List.length_nil]
    omega

theorem tileConstraints_length (t : CTile) : (tileConstraints t).length = 2 := by
  rcases t with ⟨th, p0, p1, p2, p3⟩
  cases th <;> rfl

theorem flatMap_tileConstraints_length (tiles : List CTile) :
    (tiles.flatMap tileConstraints).length = 2 * tiles.length := by
  induction tiles with
  | nil => rfl
  | cons t rest ih =>
    rw [List.flatMap_cons, List.length_append, ih, tileConstraints_length,
      List.length_cons]
    omega

/-! ## Claim C6: the constraint system -/

/-- C6: a height assignment satisfies every constraint the encoder emits
if and only if every vertex variable lies in `[1, 4]`, every thick tile
satisfies `h right = h left` plus the top/bot ±1 disjunction, and every
thin tile satisfies `h top = h bottom` plus the right/left ±1
disjunction; moreover the encoder emits exactly two domain constraints
per vertex and two constraints per tile, and no others. -/
theorem encode_c6 (h : Nat → ℤ) (n : Nat) (tiles : List CTile) :
    ((∀ c ∈ encode n tiles, c.holds h) ↔ specSystem h n tiles) ∧
    (encode n tiles).length = 2 * n + 2 * tiles.length := by
  constructor
  · rw [encode, List.forall_mem_append, domain_holds_iff, tiles_holds_iff]
    rfl
  · rw [encode, List.length_append, domainConstraints_length,
      flatMap_tileConstraints_length]

/-! ## Tile-level deduplication (gentiling2.py, lines 234-255)

The dedup logic uses only field operations, absolute values and
comparisons on the float coordinates, so it is embedded over `ℚ`
(a model of exact real arithmetic on which every test is decidable). -/

/-- The tolerance `EPSILON = 0.0001` of `closest_point` (line 235). -/
def EPSILON : ℚ := 1 / 10000

/-- L1 distance between two points, as computed by `closest_point`. -/
def dist1 (p q : ℚ × ℚ) : ℚ := |p.1 - q.1| + |p.2 - q.2|

/-- Embedding of `closest_point(target_x, target_y, points)`: the index
of the first point within L1 distance `EPSILON` of the target, else
`None`. -/
def closest_point (tx ty : ℚ) : List (ℚ × ℚ) → Option Nat
  | [] => none
  | p :: ps =>
    if |p.1 - tx| + |p.2 - ty| < EPSILON then some 0
    else (closest_point tx ty ps).map (· + 1)

/-- Embedding of the uniqueness loop of `main` (lines 247-255): walk the
tiles in order, keeping for each one its centre; a tile is appended to
`kept` exactly when `closest_point` finds no previously kept centre near
its own centre. `cs` is `unique_tile_centers`. -/
def dedupAux {α : Type} (center : α → ℚ × ℚ) :
    List α → List α → List (ℚ × ℚ) → List α
  | [], kept, _ => kept
  | t :: rest, kept, cs =>
    match closest_point (center t).1 (center t).2 cs with
    | none => dedupAux center rest (kept ++ [t]) (cs ++ [center t])
    | some _ => dedupAux center rest kept cs

/-- The tile-level deduplication: the loop started with empty
`unique_tiles` and `unique_tile_centers`. -/
def dedupTiles {α : Type} (center : α → ℚ × ℚ) (tiles : List α) : List α :=
  dedupAux center tiles [] []

/-- Specification-side reading of the dedup rule, transcribed from the
claim: process the tiles in input order and keep a tile exactly when its
centre is at L1 distance at least `EPSILON` from the centres of all
previously kept tiles. -/
def keepAux {α : Type} (center : α → ℚ × ℚ) : List α → List α → List α
  | [], kept => kept
  | t :: rest, kept =>
    if kept.all fun u => decide (EPSILON ≤ dist1 (center u) (center t)) then
      keepAux center rest (kept ++ [t])
    else
      keepAux center rest kept

/-- The specification-side dedup with an empty initial kept list. -/
def keepSpec {α : Type} (center : α → ℚ × ℚ) (tiles : List α) : List α :=
  keepAux center tiles []

theorem closest_point_eq_none_iff (tx ty : ℚ) (ps : List (ℚ × ℚ)) :
    closest_point tx ty ps = none ↔
      ∀ p ∈ ps, EPSILON ≤ |p.1 - tx| + |p.2 - ty| := by
  induction ps with
  | nil => simp [closest_point]
  | cons p ps ih =>
    simp only [closest_point]
    by_cases hp : |p.1 - tx| + |p.2 - ty| < EPSILON
    · rw [if_pos hp]
      simp only [List.forall_mem_cons]
      constructor
      · intro h
        exact absurd h (by simp)
      · rintro ⟨h1, _⟩
        exact absurd hp (not_lt.mpr h1)
    · rw [if_neg hp]
      rw [Option.map_eq_none', ih, List.forall_mem_cons]
      constructor
      · intro H
        exact ⟨not_lt.mp hp, H⟩
      · rintro ⟨_, H⟩
        exact H

theorem closest_point_eq_some (tx ty : ℚ) (ps : List (ℚ × ℚ)) (i : Nat)
    (h : closest_point tx ty ps = some i) :
    ∃ p ∈ ps, |p.1 - tx| + |p.2 - ty| < EPSILON := by
  induction ps generalizing i with
  | nil => exact absurd h (by simp [closest_point])
  | cons p ps ih =>
    simp only [closest_point] at h
    by_cases hp : |p.1 - tx| + |p.2 - ty| < EPSILON
    · exact ⟨p, List.mem_cons_self p ps, hp⟩
    · rw [if_neg hp] at h
      rcases Option.map_eq_some'.mp h with ⟨j, hj, _⟩
      rcases ih j hj with ⟨q, hq, hlt⟩
      exact ⟨q, List.mem_cons_of_mem p hq, hlt⟩

theorem dedupAux_append {α : Type} (center : α → ℚ × ℚ) (input : List α) :
    ∀ kept cs, ∃ l, dedupAux center input kept cs = kept ++ l ∧
      l.Sublist input := by
  induction input with
  | nil =>
    intro kept cs
    exact ⟨[], by simp [dedupAux], List.nil_sublist _⟩
  | cons t rest ih =>
    intro kept cs
    simp only [dedupAux]
    cases hcp : closest_point (center t).1 (center t).2 cs with
    | none =>
      rcases ih (kept ++ [t]) (cs ++ [center t]) with ⟨l, hl, hsub⟩
      refine ⟨t :: l, ?_, List.Sublist.cons₂ t hsub⟩
      rw [hl]
      simp
    | some j =>
      rcases ih kept cs with ⟨l, hl, hsub⟩
      exact ⟨l, hl, hsub.cons t⟩

theorem mem_dedupAux {α : Type} (center : α → ℚ × ℚ) (input : List α)
    (kept : List α) (cs : List (ℚ × ℚ)) (x : α) (hx : x ∈ kept) :
    x ∈ dedupAux center input kept cs := by
  rcases dedupAux_append center input kept cs with ⟨l, hl, _⟩
  rw [hl]
  exact List.mem_append_left l hx

theorem dedupAux_eq_keepAux {α : Type} (center : α → ℚ × ℚ)
    (input : List α) :
    ∀ kept, dedupAux center input kept (kept.map center) =
      keepAux center input kept := by
  induction input with
  | nil => intro kept; rfl
  | cons t rest ih =>
    intro kept
    simp only [dedupAux, keepAux]
    by_cases hall : ∀ u ∈ kept, EPSILON ≤ dist1 (center u) (center t)
    · have hnone : closest_point (center t).1 (center t).2
          (kept.map center) = none := by
        rw [closest_point_eq_none_iff]
        intro p hp
        rcases List.mem_map.mp hp with ⟨u, hu, rfl⟩
        simpa [dist1] using hall u hu
      rw [hnone]
      have hall2 : (kept.all fun u =>
          decide (EPSILON ≤ dist1 (center u) (center t))) = true := by
        rw [List.all_eq_true]
        intro u hu
        exact decide_eq_true (hall u hu)
      rw [hall2]
      have hmap : kept.map center ++ [center t] = (kept ++ [t]).map center := by
        simp
      rw [if_pos rfl, hmap]
      exact ih (kept ++ [t])
    · push_neg at hall
      rcases hall with ⟨u, hu, hlt⟩
      have hne : closest_point (center t).1 (center t).2
          (kept.map center) ≠ none := by
        intro hnone
        have h2 := (closest_point_eq_none_iff _ _ _).mp hnone (center u)
          (List.mem_map_of_mem center hu)
        have h3 : EPSILON ≤ dist1 (center u) (center t) := by
          simpa [dist1] using h2
        exact absurd hlt (not_lt.mpr h3)
      rcases Option.ne_none_iff_exists.mp hne with ⟨j, hj⟩
      rw [← hj]
      have hall2 : (kept.all fun u =>
          decide (EPSILON ≤ dist1 (center u) (center t))) = false := by
        rw [List.all_eq_false]
        exact ⟨u, hu, by simpa using hlt⟩
      rw [hall2, if_neg (by simp)]
      exact ih kept

theorem dedupAux_pairwise {α : Type} (center : α → ℚ × ℚ)
    (input : List α) :
    ∀ kept, List.Pairwise
        (fun u v => EPSILON ≤ dist1 (center u) (center v)) kept →
      List.Pairwise (fun u v => EPSILON ≤ dist1 (center u) (center v))
        (dedupAux center input kept (kept.map center)) := by
  induction input with
  | nil => intro kept h; exact h
  | cons t rest ih =>
    intro kept hp
    simp only [dedupAux]
    cases hcp : closest_point (center t).1 (center t).2 (kept.map center) with
    | none =>
      have hfar : ∀ u ∈ kept, EPSILON ≤ dist1 (center u) (center t) := by
        intro u hu
        have := (closest_point_eq_none_iff _ _ _).mp hcp (center u)
          (List.mem_map_of_mem center hu)
        simpa [dist1] using this
      have hp2 : List.Pairwise
          (fun u v => EPSILON ≤ dist1 (center u) (center v)) (kept ++ [t]) := by
        rw [List.pairwise_append]
        refine ⟨hp, List.pairwise_singleton _ t, ?_⟩
        intro u hu v hv
        rcases List.mem_singleton.mp hv with rfl
        exact hfar u hu
      have hmap : kept.map center ++ [center t] = (kept ++ [t]).map center := by
        simp
      rw [hmap]
      exact ih (kept ++ [t]) hp2
    | some j => exact ih kept hp

theorem dedupAux_covers {α : Type} (center : α → ℚ × ℚ) (input : List α) :
    ∀ kept, ∀ t ∈ input,
      ∃ u ∈ dedupAux center input kept (kept.map center),
        dist1 (center u) (center t) < EPSILON := by
  induction input with
  | nil => simp
  | cons t rest ih =>
    intro kept s hs
    simp only [dedupAux]
    cases hcp : closest_point (center t).1 (center t).2 (kept.map center) with
    | none =>
      have hmap : kept.map center ++ [center t] = (kept ++ [t]).map center := by
        simp
      rw [hmap]
      rcases List.mem_cons.mp hs with rfl | hs
      · refine ⟨s, ?_, ?_⟩
        · exact mem_dedupAux center rest _ _ s (by simp)
        · simp [dist1, EPSILON]
      · exact ih (kept ++ [t]) s hs
    | some j =>
      rcases List.mem_cons.mp hs with rfl | hs
      · rcases closest_point_eq_some _ _ _ j hcp with ⟨p, hp, hlt⟩
        rcases List.mem_map.mp hp with ⟨u, hu, rfl⟩
        refine ⟨u, mem_dedupAux center rest _ _ u hu, by simpa [dist1] using hlt⟩
      · exact ih kept s hs

/-! ## Claim C7: tile-level deduplication -/

/-- C7: the dedup loop processes the tiles in input order and keeps a
tile exactly when its centre is at L1 distance at least `1e-4` from the
centres of all previously kept tiles (so it equals the first-wins
filtering process); the kept tiles form a sublist of the input (the
first tile at each distinct centre is the one kept), kept centres are
pairwise at L1 distance at least `1e-4`, and every input tile — in
particular every dropped one — has its centre within L1 distance
`< 1e-4` of some kept tile's centre. -/
theorem dedup_c7 {α : Type} (center : α → ℚ × ℚ) (tiles : List α) :
    dedupTiles center tiles = keepSpec center tiles ∧
    (dedupTiles center tiles).Sublist tiles ∧
    List.Pairwise (fun u v => EPSILON ≤ dist1 (center u) (center v))
      (dedupTiles center tiles) ∧
    ∀ t ∈ tiles, ∃ u ∈ dedupTiles center tiles,
      dist1 (center u) (center t) < EPSILON := by
  refine ⟨?_, ?_, ?_, ?_⟩
  · exact dedupAux_eq_keepAux center tiles []
  · rcases dedupAux_append center tiles [] [] with ⟨l, hl, hsub⟩
    rw [dedupTiles, hl]
    simpa using hsub
  · exact dedupAux_pairwise center tiles [] List.Pairwise.nil
  · exact dedupAux_covers center tiles []
